import Mathlib

/-!
# Verification of the criticality_score ecosystem dependency-analysis pipeline

Shallow embedding of the Go sources of `hust-open-atom-club/criticality_score`:
the Alpine and CentOS collectors (`pkg/collector/alpine/alpine.go`,
`pkg/collector/centos/centos.go`), the git-metrics synchronizer
(`pkg/gitmetricsync/gitmetricsync.go`) and the deps.dev / GitHub enrichers.

Go strings are modelled as `List Char` (the relevant fields are ASCII after
the collectors strip NUL and non-ASCII bytes, so Go's byte indexing agrees
with character indexing); Go `map[string]T` is modelled as an association
list whose insertion semantics (overwrite for plain assignment,
keep-existing for the guarded insert) are made explicit; `float64`
arithmetic of the PageRank computation is modelled over `ℚ`.
-/

/-- `PackageInfo` as in both collectors: the parsed fields of one package
record (`alpine.go` / `centos.go`).  The graph key is `name`
(`PackageName` in the Alpine source, `Name` in the CentOS source). -/
structure PackageInfo where
  name : String
  version : String
  description : String
  homepage : String
  depends : List String
deriving Repr, DecidableEq

/-- The zero value of Go's `PackageInfo` struct (`var pkg PackageInfo`). -/
def emptyPkg : PackageInfo := ⟨"", "", "", "", []⟩

/-- A package index, the model of Go's `map[string]PackageInfo`.  Both
collectors only ever store a record under its own `name` field, so the map
is represented by its list of values; lookup is by the `name` field. -/
abbrev PkgIndex := List PackageInfo

/-- Map lookup `packages[depName]` : first record with the given name. -/
def lookupPkg (idx : PkgIndex) (n : String) : Option PackageInfo :=
  idx.find? (fun p => p.name = n)

/-- The key set `V` of the index (Go map keys). -/
def names (idx : PkgIndex) : List String := idx.map (fun p => p.name)

/- ### Alpine dependency-token normalization (`alpine.go`, `getPackageList`)

```go
if idx := strings.Index(dep, ":"); idx != -1 { dep = dep[idx+1:] }
if idx := strings.Index(dep, "="); idx != -1 { dep = dep[:idx] }
```
-/

/-- `dep[idx+1:]` for `idx` = first occurrence of `c`; unchanged when `c`
does not occur (`strings.Index == -1`). -/
def dropThroughChar (c : Char) (cs : List Char) : List Char :=
  if c ∈ cs then (cs.dropWhile (fun x => x ≠ c)).tail else cs

/-- `dep[:idx]` for `idx` = first occurrence of `c`; unchanged when `c`
does not occur.  In both cases this is `takeWhile (· ≠ c)`. -/
def takeBeforeChar (c : Char) (cs : List Char) : List Char :=
  cs.takeWhile (fun x => x ≠ c)

/-- Normalization of one dependency token in the Alpine parser: strip up to
and including the first `:`, then keep only what precedes the first `=`. -/
def normalizeDepToken (dep : String) : String :=
  ⟨takeBeforeChar '=' (dropThroughChar ':' dep.data)⟩

/- ### Structural string helpers (models of `strings.Split` and friends) -/

/-- `strings.Split(data, sep)` for a one-character separator. -/
def splitChar (c : Char) : List Char → List (List Char)
  | [] => [[]]
  | x :: xs =>
    match splitChar c xs with
    | [] => [[x]]
    | a :: as => if x = c then [] :: a :: as else (x :: a) :: as

/-- `strings.Split(data, "\n\n")`: split on the two-character separator,
leftmost-first, non-overlapping. -/
def splitBlank : List Char → List (List Char)
  | [] => [[]]
  | '\n' :: '\n' :: rest =>
    match splitBlank rest with
    | [] => [[]]
    | as => [] :: as
  | x :: rest =>
    match splitBlank rest with
    | [] => [[x]]
    | a :: as => (x :: a) :: as

/-- `strings.Fields`: split on whitespace, dropping empty fields. -/
def fields (cs : List Char) : List (List Char) :=
  (cs.foldr
    (fun x acc =>
      match acc with
      | [] => [[]]
      | a :: as => if x.isWhitespace then [] :: a :: as else (x :: a) :: as)
    [[]]).filter (fun f => f ≠ [])

/- ### Alpine APKINDEX parser (`alpine.go`, `getPackageList`) -/

/-- One iteration of the `switch line[0:2]` statement over the lines of an
APKINDEX entry.  Lines shorter than two characters and unknown keys are
skipped; a `D:` line appends every whitespace-separated token, normalized,
to `depends`. -/
def parseAlpineLine (pkg : PackageInfo) (line : List Char) : PackageInfo :=
  match line with
  | 'P' :: ':' :: rest => { pkg with name := ⟨rest⟩ }
  | 'V' :: ':' :: rest => { pkg with version := ⟨rest⟩ }
  | 'D' :: ':' :: rest =>
      { pkg with depends :=
          pkg.depends ++ (fields rest).map (fun t => normalizeDepToken ⟨t⟩) }
  | 'T' :: ':' :: rest => { pkg with description := ⟨rest⟩ }
  | 'U' :: ':' :: rest => { pkg with homepage := ⟨rest⟩ }
  | _ => pkg

/-- Parse one blank-line-separated APKINDEX entry, starting from the zero
value of `PackageInfo`. -/
def parseAlpineEntry (entry : List Char) : PackageInfo :=
  (splitChar '\n' entry).foldl parseAlpineLine emptyPkg

/-- Go map assignment `m[k] = v`: overwrite any record with the same name,
else append. -/
def insertLastWins (m : PkgIndex) (p : PackageInfo) : PkgIndex :=
  if (lookupPkg m p.name).isSome then
    m.map (fun q => if q.name = p.name then p else q)
  else m ++ [p]

/-- The guarded insert of the CentOS collector
(`if _, exists := cc.PkgInfoMap[pkgInfo.Name]; !exists { ... }`). -/
def insertIfAbsent (m : PkgIndex) (p : PackageInfo) : PkgIndex :=
  if (lookupPkg m p.name).isSome then m else m ++ [p]

/-- `getPackageList` on decompressed APKINDEX text: split entries on blank
lines, parse each, and store records with non-empty name by plain map
assignment (so a later record with the same name overwrites an earlier
one). -/
def alpineGetPackageList (data : String) : PkgIndex :=
  ((splitBlank data.data).map parseAlpineEntry).foldl
    (fun m pkg => if pkg.name ≠ "" then insertLastWins m pkg else m) []

/-- The CentOS index construction over the stream of parsed `<package>`
records (`getDependencies`): a record is inserted only when its name is not
yet a key. -/
def centosBuildIndex (pkgs : List PackageInfo) : PkgIndex :=
  pkgs.foldl insertIfAbsent []

/- ### Claim C2 -/

/-- C2. The claim states that the parser strips both a leading
`namespace:` prefix and any trailing version-constraint suffix, so that
`libc:foo=1.2` and `libc:foo>=1.2` both normalize to `foo`.  This is false:
the Alpine tokenizer cuts only at the first `=`, so the `>` of a `>=`
constraint survives and `libc:foo>=1.2` normalizes to `foo>`. -/
theorem alpine_token_normalization_keeps_gt :
    normalizeDepToken "libc:foo>=1.2" ≠ "foo" ∧
      normalizeDepToken "libc:foo>=1.2" = "foo>" := by
  constructor
  · decide
  · rfl

/-- C2 (amended): the tokenizer drops everything up to and including the
first `:` and everything from the first `=` on; hence `libc:foo=1.2`
yields `foo` while `libc:foo>=1.2` yields `foo>` (the `>` of the `>=`
constraint operator is kept). -/
theorem alpine_token_normalization_amended :
    normalizeDepToken "libc:foo=1.2" = "foo" ∧
      normalizeDepToken "libc:foo>=1.2" = "foo>" ∧
      normalizeDepToken "foo" = "foo" := by
  refine ⟨rfl, rfl, rfl⟩

/- ### CentOS description truncation (`centos.go`, `parsePackageXML`)

```go
if len(description) > 255 { description = description[:254] }
```
(`parsePackageXML` has already removed NUL and all non-ASCII characters, so
Go byte length equals character length here). -/

/-- The description-width cap of the CentOS parser. -/
def centosTruncate (s : String) : String :=
  if s.length > 255 then ⟨s.data.take 254⟩ else s

/- ### Persisted edges and DOT edges

`storeDependenciesInDatabase` (both collectors) inserts one
`(frompackage, topackage)` row per element of the record's `Depends`
list, with no membership check against the index; `generateDependencyGraph`
emits an edge only when the target is a key of the index. -/

/-- The rows inserted by `storeDependenciesInDatabase pkgName dependencies`. -/
def storeDependencies (pkgName : String) (dependencies : List String) :
    List (String × String) :=
  dependencies.map (fun dep => (pkgName, dep))

/-- All relationship rows inserted by the `Collect` loop: one call of
`storeDependenciesInDatabase` per package, on its raw `Depends` list. -/
def persistedEdges (idx : PkgIndex) : List (String × String) :=
  idx.flatMap (fun p => storeDependencies p.name p.depends)

/-- The edges of the DOT artifact (`generateDependencyGraph`): emitted only
when the dependency name is a key of the index. -/
def dotEdges (idx : PkgIndex) : List (String × String) :=
  idx.flatMap (fun p =>
    (p.depends.filter (fun d => (lookupPkg idx d).isSome)).map
      (fun d => (p.name, d)))

/-- Scenario S3 of the spec: a single package `A` depending on `X`, with
`X` not in the index. -/
def idxS3 : PkgIndex := [⟨"A", "1", "", "", ["X"]⟩]

/-- Scenario S1 of the spec: `A` depends on `B`, `B` has no dependencies. -/
def idxS1 : PkgIndex := [⟨"A", "1", "", "", ["B"]⟩, ⟨"B", "1", "", "", []⟩]

/- ### Claim C1 -/

/-- C1. The claim states that no edge whose target is outside the vertex
set is inserted into the relationships table.  This is false:
`storeDependenciesInDatabase` receives the raw `Depends` list and performs
no membership check, so for the index `{A depends X}` with `X ∉ V` the row
`(A, X)` is inserted. -/
theorem persisted_edge_to_missing_vertex :
    ("A", "X") ∈ persistedEdges idxS3 ∧ lookupPkg idxS3 "X" = none := by
  constructor
  · decide
  · decide

/-- C1 (amended): the persisted relationships are exactly one row per
dependency token of each record, with no restriction of the target to the
vertex set; only the in-memory graph of the DOT artifact drops edges whose
target is not a key of the index (a DOT edge has both endpoints in `V`). -/
theorem persisted_edges_unfiltered_dot_edges_restricted :
    ∀ (idx : PkgIndex) (e : String × String),
      (e ∈ persistedEdges idx ↔
        ∃ p, p ∈ idx ∧ e.1 = p.name ∧ e.2 ∈ p.depends) ∧
      (e ∈ dotEdges idx ↔
        ∃ p, p ∈ idx ∧ e.1 = p.name ∧ e.2 ∈ p.depends ∧
          (lookupPkg idx e.2).isSome) := by
  intro idx e
  constructor
  · simp only [persistedEdges, storeDependencies, List.mem_flatMap,
      List.mem_map, Prod.ext_iff]
    constructor
    · rintro ⟨p, hp, d, hd, h1, h2⟩
      exact ⟨p, hp, h1.symm, h2 ▸ hd⟩
    · rintro ⟨p, hp, h1, h2⟩
      exact ⟨p, hp, e.2, h2, h1.symm, rfl⟩
  · simp only [dotEdges, List.mem_flatMap, List.mem_map, List.mem_filter,
      Prod.ext_iff]
    constructor
    · rintro ⟨p, hp, d, ⟨hd, hin⟩, h1, h2⟩
      exact ⟨p, hp, h1.symm, h2 ▸ hd, h2 ▸ hin⟩
    · rintro ⟨p, hp, h1, h2, h3⟩
      exact ⟨p, hp, e.2, ⟨h2, h3⟩, h1.symm, rfl⟩

/- ### Lookup lemmas for the association-list model of Go maps -/

theorem lookupPkg_cons (q : PackageInfo) (m : PkgIndex) (k : String) :
    lookupPkg (q :: m) k = if q.name = k then some q else lookupPkg m k := by
  by_cases h : q.name = k <;> simp [lookupPkg, List.find?_cons, h]

theorem lookupPkg_append (m m' : PkgIndex) (k : String) :
    lookupPkg (m ++ m') k =
      match lookupPkg m k with
      | some v => some v
      | none => lookupPkg m' k := by
  induction m with
  | nil => simp [lookupPkg]
  | cons q m ih =>
      by_cases h : q.name = k <;> simp [lookupPkg_cons, h, ih]

theorem lookupPkg_map_replace (m : PkgIndex) (p : PackageInfo) :
    lookupPkg (m.map (fun q => if q.name = p.name then p else q)) p.name =
      if (lookupPkg m p.name).isSome then some p else none := by
  induction m with
  | nil => simp [lookupPkg]
  | cons q m ih =>
      by_cases h : q.name = p.name
      · have hhead : (if q.name = p.name then p else q) = p := if_pos h
        rw [List.map_cons, hhead, lookupPkg_cons, lookupPkg_cons,
          if_pos h, if_pos rfl]
        simp
      · have hhead : (if q.name = p.name then p else q) = q := if_neg h
        rw [List.map_cons, hhead, lookupPkg_cons, lookupPkg_cons,
          if_neg h, if_neg h, ih]

theorem lookupPkg_map_replace_ne (m : PkgIndex) (p : PackageInfo)
    (k : String) (hk : k ≠ p.name) :
    lookupPkg (m.map (fun q => if q.name = p.name then p else q)) k =
      lookupPkg m k := by
  induction m with
  | nil => simp [lookupPkg]
  | cons q m ih =>
      have h1 : p.name ≠ k := fun hc => hk hc.symm
      by_cases h : q.name = p.name
      · have h2 : q.name ≠ k := by rw [h]; exact h1
        have hhead : (if q.name = p.name then p else q) = p := if_pos h
        rw [List.map_cons, hhead, lookupPkg_cons, lookupPkg_cons,
          if_neg h1, if_neg h2, ih]
      · have hhead : (if q.name = p.name then p else q) = q := if_neg h
        rw [List.map_cons, hhead, lookupPkg_cons, lookupPkg_cons, ih]

theorem lookup_insertLastWins_self (m : PkgIndex) (p : PackageInfo) :
    lookupPkg (insertLastWins m p) p.name = some p := by
  unfold insertLastWins
  cases hx : lookupPkg m p.name with
  | some v =>
      rw [if_pos (by rfl)]
      rw [lookupPkg_map_replace, hx]
      rfl
  | none =>
      rw [if_neg (by simp)]
      rw [lookupPkg_append, hx]
      simp [lookupPkg_cons, lookupPkg]

theorem lookup_insertLastWins_ne (m : PkgIndex) (p : PackageInfo)
    (k : String) (hk : k ≠ p.name) :
    lookupPkg (insertLastWins m p) k = lookupPkg m k := by
  unfold insertLastWins
  have h1 : p.name ≠ k := fun hc => hk hc.symm
  cases hx : lookupPkg m p.name with
  | some v =>
      rw [if_pos (by rfl)]
      exact lookupPkg_map_replace_ne m p k hk
  | none =>
      rw [if_neg (by simp)]
      rw [lookupPkg_append]
      cases hy : lookupPkg m k with
      | some w => rfl
      | none => simp [lookupPkg_cons, lookupPkg, h1]

theorem lookup_insertIfAbsent (m : PkgIndex) (p : PackageInfo) (k : String) :
    lookupPkg (insertIfAbsent m p) k =
      match lookupPkg m k with
      | some v => some v
      | none => if p.name = k then some p else none := by
  unfold insertIfAbsent
  cases hx : lookupPkg m p.name with
  | some v =>
      rw [if_pos (by rfl)]
      cases hy : lookupPkg m k with
      | some w => rfl
      | none =>
          by_cases hpk : p.name = k
          · rw [hpk] at hx; rw [hx] at hy; exact Option.noConfusion hy
          · simp [hpk]
  | none =>
      rw [if_neg (by simp)]
      rw [lookupPkg_append]
      cases hy : lookupPkg m k with
      | some w => rfl
      | none => simp [lookupPkg_cons, lookupPkg]

/-- The Alpine index construction over the stream of parsed entries:
plain map assignment guarded by a non-empty name. -/
def alpineBuildIndex (pkgs : List PackageInfo) : PkgIndex :=
  pkgs.foldl (fun m pkg => if pkg.name ≠ "" then insertLastWins m pkg else m) []

theorem alpineGetPackageList_eq (data : String) :
    alpineGetPackageList data =
      alpineBuildIndex ((splitBlank data.data).map parseAlpineEntry) := rfl

theorem centos_fold_lookup (ps : List PackageInfo) (m : PkgIndex)
    (k : String) :
    lookupPkg (ps.foldl insertIfAbsent m) k =
      match lookupPkg m k with
      | some v => some v
      | none => ps.find? (fun p => p.name = k) := by
  induction ps generalizing m with
  | nil => cases hx : lookupPkg m k <;> simp [hx]
  | cons p ps ih =>
      simp only [List.foldl_cons]
      rw [ih]
      rw [lookup_insertIfAbsent]
      cases hx : lookupPkg m k
      · by_cases hpk : p.name = k <;> simp [hpk, List.find?_cons]
      · simp [List.find?_cons]

theorem alpine_fold_lookup (ps : List PackageInfo) (m : PkgIndex)
    (k : String) (hk : k ≠ "") :
    lookupPkg
        (ps.foldl (fun m pkg => if pkg.name ≠ "" then insertLastWins m pkg
          else m) m) k =
      match ps.reverse.find? (fun p => p.name = k) with
      | some v => some v
      | none => lookupPkg m k := by
  induction ps generalizing m with
  | nil => simp
  | cons p ps ih =>
      simp only [List.foldl_cons, List.reverse_cons]
      rw [ih]
      cases hr : ps.reverse.find? (fun p => p.name = k)
      · rw [List.find?_append, hr]
        simp only [Option.none_orElse]
        by_cases hp : p.name = ""
        · have hek : ("" : String) ≠ k := fun hc => hk hc.symm
          have hpk : ¬(p.name = k) := by rw [hp]; exact hek
          simp [hp, List.find?_cons, hpk, hek]
        · by_cases hpk : p.name = k
          · simp only [hp, if_true, ne_eq, not_false_iff, if_pos]
            rw [← hpk, lookup_insertLastWins_self]
            simp [List.find?_cons, hpk]
          · have hkk : k ≠ p.name := fun hc => hpk hc.symm
            simp only [hp, ne_eq, not_false_iff, if_pos]
            rw [lookup_insertLastWins_ne m p k hkk]
            simp [List.find?_cons, hpk]
      · rw [List.find?_append, hr]
        simp

/- ### Claim C6 -/

/-- Two records with the same name `A`, versions `1` and `2`. -/
def psDup : List PackageInfo :=
  [⟨"A", "1", "", "", []⟩, ⟨"A", "2", "", "", []⟩]

/-- C6. The claim states that every parser keeps the record inserted
first.  This is false for the Alpine parser: its plain map assignment
`packageList[pkg.PackageName] = pkg` overwrites, so on an APKINDEX with
two entries named `A` (versions `1` then `2`) the index keeps version
`2`, not version `1`. -/
theorem alpine_duplicate_name_last_wins :
    (lookupPkg (alpineGetPackageList "P:A\nV:1\n\nP:A\nV:2") "A").map
        PackageInfo.version = some "2" ∧
      (lookupPkg (alpineGetPackageList "P:A\nV:1\n\nP:A\nV:2") "A").map
        PackageInfo.version ≠ some "1" := by
  constructor
  · decide
  · decide

/-- C6 (amended): on duplicate names the CentOS index keeps the record
inserted first (its insert is guarded by an existence check), while the
Alpine index keeps the record inserted last (plain map assignment, for
non-empty names): lookup in the built CentOS index is `find?` over the
record stream, lookup in the built Alpine index is `find?` over the
reversed stream. -/
theorem duplicate_name_first_wins_centos_last_wins_alpine :
    ∀ (ps : List PackageInfo) (k : String),
      lookupPkg (centosBuildIndex ps) k = ps.find? (fun p => p.name = k) ∧
      (k ≠ "" →
        lookupPkg (alpineBuildIndex ps) k =
          ps.reverse.find? (fun p => p.name = k)) := by
  intro ps k
  constructor
  · unfold centosBuildIndex
    rw [centos_fold_lookup]
    simp [lookupPkg]
  · intro hk
    unfold alpineBuildIndex
    rw [alpine_fold_lookup ps [] k hk]
    cases hr : ps.reverse.find? (fun p => p.name = k) <;> simp [lookupPkg]

/-- Witness for the amended C6 at the concrete duplicate stream `psDup`. -/
theorem duplicate_name_policy_witness :
    (("A" : String) ≠ "") ∧
      (lookupPkg (centosBuildIndex psDup) "A" =
          psDup.find? (fun p => p.name = "A") ∧
        lookupPkg (alpineBuildIndex psDup) "A" =
          psDup.reverse.find? (fun p => p.name = "A")) :=
  ⟨by decide,
    (duplicate_name_first_wins_centos_last_wins_alpine psDup "A").1,
    (duplicate_name_first_wins_centos_last_wins_alpine psDup "A").2
      (by decide)⟩

/- ### Split lemmas used for the description claims -/

theorem splitChar_ne_nil (c : Char) (cs : List Char) :
    splitChar c cs ≠ [] := by
  cases cs with
  | nil => simp [splitChar]
  | cons x xs =>
      unfold splitChar
      cases h : splitChar c xs with
      | nil => simp
      | cons a as => by_cases hx : x = c <;> simp [hx]

theorem splitChar_of_not_mem (c : Char) (cs : List Char) (h : c ∉ cs) :
    splitChar c cs = [cs] := by
  induction cs with
  | nil => rfl
  | cons x xs ih =>
      have hx : x ≠ c := fun hc => h (hc ▸ List.mem_cons_self x xs)
      have hxs : c ∉ xs := fun hc => h (List.mem_cons_of_mem x hc)
      unfold splitChar
      rw [ih hxs]
      simp [hx]

theorem splitChar_cons (c x : Char) (xs : List Char) :
    splitChar c (x :: xs) =
      match splitChar c xs with
      | [] => [[x]]
      | a :: as => if x = c then [] :: a :: as else (x :: a) :: as := rfl

theorem splitChar_append_sep (c : Char) (xs ys : List Char) (h : c ∉ xs) :
    splitChar c (xs ++ c :: ys) = xs :: splitChar c ys := by
  induction xs with
  | nil =>
      rw [List.nil_append, splitChar_cons]
      cases hr : splitChar c ys with
      | nil => exact absurd hr (splitChar_ne_nil c ys)
      | cons a as => simp
  | cons x xs ih =>
      have hx : x ≠ c := fun hc => h (hc ▸ List.mem_cons_self x xs)
      have hxs : c ∉ xs := fun hc => h (List.mem_cons_of_mem x hc)
      rw [List.cons_append, splitChar_cons, ih hxs]
      simp [hx]

/- ### Claim C5 -/

/-- A description of 300 characters, as in scenario S5 of the spec. -/
def longDesc : String := ⟨List.replicate 300 'x'⟩

set_option maxRecDepth 20000 in
/-- C5. The claim states that every parser truncates the description to at
most 254 characters, so that no persisted description exceeds 255
characters.  This is false: the Alpine parser stores the `T:` line's value
unchanged, so a 300-character description is kept at length 300. -/
theorem alpine_description_not_truncated :
    (parseAlpineEntry ("P:A\nT:" ++ longDesc).data).description.length
        = 300 ∧
      255 <
        (parseAlpineEntry ("P:A\nT:" ++ longDesc).data).description.length
    := by
  constructor
  · decide
  · decide

/-- C5 (amended): only the CentOS parser truncates, and only descriptions
strictly longer than 255 characters are cut (to 254), so CentOS persisted
descriptions never exceed 255 characters and a 300-character CentOS
description is stored with length 254; the Alpine parser stores the
description of an entry unchanged, at its full length. -/
theorem description_truncation_amended :
    ∀ (s : String) (cs : List Char),
      (centosTruncate s).length ≤ 255 ∧
      (255 < s.length → (centosTruncate s).length = 254) ∧
      ('\n' ∉ cs →
        (parseAlpineEntry (("P:A\nT:" : String).data ++ cs)).description
          = ⟨cs⟩) := by
  intro s cs
  refine ⟨?_, ?_, ?_⟩
  · obtain ⟨d⟩ := s
    unfold centosTruncate
    by_cases h : String.length ⟨d⟩ > 255
    · rw [if_pos h]
      show (List.take 254 d).length ≤ 255
      rw [List.length_take]
      omega
    · rw [if_neg h]
      have hd : ¬(d.length > 255) := h
      show d.length ≤ 255
      omega
  · intro h
    obtain ⟨d⟩ := s
    unfold centosTruncate
    rw [if_pos h]
    show (List.take 254 d).length = 254
    have hd : 255 < d.length := h
    rw [List.length_take]
    omega
  · intro h
    have hsplit :
        splitChar '\n' (("P:A\nT:" : String).data ++ cs)
          = [['P', ':', 'A'], 'T' :: ':' :: cs] := by
      have h2 : ('\n' : Char) ∉ ('T' :: ':' :: cs) := by
        intro hc
        simp only [List.mem_cons] at hc
        rcases hc with hc | hc | hc
        · exact absurd hc (by decide)
        · exact absurd hc (by decide)
        · exact h hc
      have h1 : ('\n' : Char) ∉ (['P', ':', 'A'] : List Char) := by decide
      have hdata : ("P:A\nT:" : String).data ++ cs
          = ['P', ':', 'A'] ++ '\n' :: ('T' :: ':' :: cs) := rfl
      rw [hdata, splitChar_append_sep '\n' _ _ h1,
        splitChar_of_not_mem '\n' _ h2]
    unfold parseAlpineEntry
    rw [hsplit]
    rfl

set_option maxRecDepth 20000 in
/-- Witness for the amended C5: the 300-character description is truncated
to 254 by the CentOS cap and kept whole by the Alpine parser. -/
theorem description_truncation_witness :
    (255 < longDesc.length ∧ ('\n' : Char) ∉ ['y']) ∧
      ((centosTruncate longDesc).length ≤ 255 ∧
        (centosTruncate longDesc).length = 254 ∧
        (parseAlpineEntry (("P:A\nT:" : String).data ++ ['y'])).description
          = ⟨['y']⟩) :=
  ⟨⟨by decide, by decide⟩,
    (description_truncation_amended longDesc ['y']).1,
    (description_truncation_amended longDesc ['y']).2.1 (by decide),
    (description_truncation_amended longDesc ['y']).2.2 (by decide)⟩

/- ### Depth-first dependency closure

`centos.go` `getAllDep` recurses into every dependency token of a known
package and records every popped name, known or not; `alpine.go`
`GetAllDependencies` descends only into dependencies that are keys of the
index.  Both share a visited set that is checked and extended before the
name is appended to the result.  The shared recursion is modelled as a
worklist walk (same visit order as the Go recursion) with explicit fuel;
sufficiency of the fuel is proved below, which is the termination argument
for the Go recursion. -/

/-- Successors followed by the CentOS traversal: all dependency tokens of
a known package (an unknown name has none, but is itself recorded). -/
def childrenCentos (idx : PkgIndex) (n : String) : List String :=
  match lookupPkg idx n with
  | some p => p.depends
  | none => []

/-- Successors followed by the Alpine traversal: only dependency tokens
that are keys of the index. -/
def childrenAlpine (idx : PkgIndex) (n : String) : List String :=
  match lookupPkg idx n with
  | some p => p.depends.filter (fun d => (lookupPkg idx d).isSome)
  | none => []

/-- Worklist form of the visited-set depth-first traversal shared by
`getAllDep` and `GetAllDependencies`, with explicit fuel.  It returns the
final visited set together with the accumulated `deps` list. -/
def dfsAux (children : String → List String) :
    Nat → List String → List String → List String →
      Option (List String × List String)
  | _, [], visited, deps => some (visited, deps)
  | 0, _ :: _, _, _ => none
  | fuel+1, n :: rest, visited, deps =>
    if n ∈ visited then dfsAux children fuel rest visited deps
    else
      dfsAux children fuel (children n ++ rest) (n :: visited) (deps ++ [n])

/-- All names that can ever enter the worklist: the keys of the index and
every dependency token of every record. -/
def universeNames (idx : PkgIndex) : List String :=
  names idx ++ idx.flatMap (fun p => p.depends)

/-- Remaining potential of a traversal state: one unit per pending stack
entry plus, for every not-yet-visited universe name, one unit for the pop
and one per successor pushed. -/
def dfsWeight (children : String → List String)
    (uni visited : List String) : Nat :=
  ((uni.dedup.filter (fun n => n ∉ visited)).map
    (fun n => 1 + (children n).length)).sum

/-- Fuel that always suffices to finish the traversal from `stack`. -/
def dfsFuel (children : String → List String)
    (uni stack : List String) : Nat :=
  stack.length + dfsWeight children uni [] + 1

/-- The closure list of `getAllDep` (CentOS). -/
def getAllDep (idx : PkgIndex) (pkgName : String) : List String :=
  match dfsAux (childrenCentos idx)
      (dfsFuel (childrenCentos idx) (universeNames idx) [pkgName])
      [pkgName] [] [] with
  | some (_, deps) => deps
  | none => []

/-- The closure list of `GetAllDependencies` (Alpine). -/
def getAllDependencies (idx : PkgIndex) (pkgName : String) : List String :=
  match dfsAux (childrenAlpine idx)
      (dfsFuel (childrenAlpine idx) (universeNames idx) [pkgName])
      [pkgName] [] [] with
  | some (_, deps) => deps
  | none => []

theorem dfsAux_nil (c : String → List String) (f : Nat)
    (v d : List String) : dfsAux c f [] v d = some (v, d) := by
  cases f <;> rfl

theorem dfsAux_succ (c : String → List String) (f : Nat) (n : String)
    (rest v d : List String) :
    dfsAux c (f+1) (n :: rest) v d =
      if n ∈ v then dfsAux c f rest v d
      else dfsAux c f (c n ++ rest) (n :: v) (d ++ [n]) := rfl

/-- Summing a weight over the unvisited part of a duplicate-free list:
visiting a fresh member removes exactly its term. -/
theorem sum_weight_filter_cons (w : String → Nat) :
    ∀ (l : List String), l.Nodup → ∀ (visited : List String) (n : String),
      n ∈ l → n ∉ visited →
      ((l.filter (fun x => x ∉ visited)).map w).sum =
        w n + ((l.filter (fun x => x ∉ n :: visited)).map w).sum := by
  intro l
  induction l with
  | nil => intro _ _ _ hn; exact absurd hn (List.not_mem_nil _)
  | cons a l ih =>
      intro hnd visited n hn hv
      have hndl : l.Nodup := hnd.of_cons
      by_cases han : a = n
      · subst han
        have hal : a ∉ l := (List.nodup_cons.mp hnd).1
        have h1 : l.filter (fun x => x ∉ a :: visited) =
            l.filter (fun x => x ∉ visited) := by
          apply List.filter_congr
          intro x hx
          have hxa : x ≠ a := fun hc => hal (hc ▸ hx)
          simp [List.mem_cons, hxa]
        have hc2 : ¬(a ∉ a :: visited) := fun hc =>
          hc (List.mem_cons_self a visited)
        simp [List.filter_cons, hv, hc2, h1]
        have hxa : ∀ x ∈ l,
            (!decide (x = a) && !decide (x ∈ visited))
              = (!decide (x ∈ visited)) := by
          intro x hx
          have hne : ¬(x = a) := fun hc => hal (hc ▸ hx)
          simp [hne]
        rw [List.filter_congr hxa]
      · have hnl : n ∈ l := by
          rcases List.mem_cons.mp hn with h | h
          · exact absurd h.symm han
          · exact h
        have hstep := ih hndl visited n hnl hv
        by_cases hav : a ∈ visited
        · have h1 : ¬(a ∉ visited) := fun hc => hc hav
          have h2 : ¬(a ∉ n :: visited) := fun hc =>
            hc (List.mem_cons_of_mem n hav)
          simp only [List.filter_cons, h1, h2, decide_eq_true_eq,
            if_neg, not_false_iff]
          exact hstep
        · have h2 : a ∉ n :: visited := by
            intro hc
            rcases List.mem_cons.mp hc with h | h
            · exact han h
            · exact hav h
          simp only [List.filter_cons, hav, h2, decide_eq_true_eq,
            not_false_iff, if_pos, List.map_cons, List.sum_cons]
          rw [hstep]
          omega

theorem dfsWeight_visit (children : String → List String)
    (uni visited : List String) (n : String)
    (hn : n ∈ uni.dedup) (hv : n ∉ visited) :
    dfsWeight children uni visited =
      1 + (children n).length + dfsWeight children uni (n :: visited) := by
  unfold dfsWeight
  rw [sum_weight_filter_cons _ uni.dedup uni.nodup_dedup visited n hn hv]

theorem dfsWeight_skip (children : String → List String)
    (uni visited : List String) (n : String) (hn : n ∉ uni.dedup) :
    dfsWeight children uni (n :: visited) =
      dfsWeight children uni visited := by
  unfold dfsWeight
  congr 1
  congr 1
  apply List.filter_congr
  intro x hx
  have hxn : x ≠ n := fun hc => hn (hc ▸ hx)
  simp [List.mem_cons, hxn]

/-- Fuel sufficiency: with more fuel than the pending stack plus the total
remaining potential, the traversal reaches its base case.  This is the
termination argument of the Go recursion: every step either pops a visited
or unknown name (shrinking the stack), or visits a fresh universe name
(consuming its potential). -/
theorem dfsAux_isSome (children : String → List String)
    (uni : List String) (hu : ∀ n, n ∉ uni → children n = []) :
    ∀ (fuel : Nat) (stack visited deps : List String),
      stack.length + dfsWeight children uni visited < fuel →
      (dfsAux children fuel stack visited deps).isSome := by
  intro fuel
  induction fuel with
  | zero => intro stack visited deps h; omega
  | succ f ih =>
      intro stack visited deps h
      cases stack with
      | nil => rw [dfsAux_nil]; rfl
      | cons n rest =>
          rw [dfsAux_succ]
          by_cases hv : n ∈ visited
          · rw [if_pos hv]
            apply ih
            simp only [List.length_cons] at h
            omega
          · rw [if_neg hv]
            apply ih
            by_cases hn : n ∈ uni.dedup
            · have hw := dfsWeight_visit children uni visited n hn hv
              simp only [List.length_cons] at h
              simp only [List.length_append]
              omega
            · have hc : children n = [] := by
                apply hu
                intro hmem
                exact hn (List.mem_dedup.mpr hmem)
              have hw := dfsWeight_skip children uni visited n hn
              simp only [List.length_cons] at h
              simp only [hc, List.nil_append]
              omega

/-- The result list only grows, and the final visited set is the initial
one plus exactly the newly appended names. -/
theorem dfsAux_grow (children : String → List String) :
    ∀ (fuel : Nat) (stack visited deps visited' deps' : List String),
      dfsAux children fuel stack visited deps = some (visited', deps') →
      ∃ t, deps' = deps ++ t ∧
        ∀ x, (x ∈ visited' ↔ x ∈ visited ∨ x ∈ t) := by
  intro fuel
  induction fuel with
  | zero =>
      intro stack visited deps visited' deps' h
      cases stack with
      | nil =>
          rw [dfsAux_nil] at h
          obtain ⟨h1, h2⟩ := Prod.mk.injEq .. ▸ Option.some.injEq .. ▸ h
          exact ⟨[], by simp [← h1, ← h2]⟩
      | cons n rest => exact Option.noConfusion h
  | succ f ih =>
      intro stack visited deps visited' deps' h
      cases stack with
      | nil =>
          rw [dfsAux_nil] at h
          obtain ⟨h1, h2⟩ := Prod.mk.injEq .. ▸ Option.some.injEq .. ▸ h
          exact ⟨[], by simp [← h1, ← h2]⟩
      | cons n rest =>
          rw [dfsAux_succ] at h
          by_cases hv : n ∈ visited
          · rw [if_pos hv] at h
            exact ih rest visited deps visited' deps' h
          · rw [if_neg hv] at h
            obtain ⟨t, ht, hmem⟩ :=
              ih (children n ++ rest) (n :: visited) (deps ++ [n])
                visited' deps' h
            refine ⟨n :: t, ?_, ?_⟩
            · rw [ht]; simp
            · intro x
              rw [hmem x]
              simp only [List.mem_cons]
              tauto

/-- No name is appended twice: the result list is duplicate-free whenever
the names already in `deps` are all in the visited set. -/
theorem dfsAux_nodup (children : String → List String) :
    ∀ (fuel : Nat) (stack visited deps visited' deps' : List String),
      dfsAux children fuel stack visited deps = some (visited', deps') →
      deps.Nodup → (∀ x ∈ deps, x ∈ visited) → deps'.Nodup := by
  intro fuel
  induction fuel with
  | zero =>
      intro stack visited deps visited' deps' h hnd _
      cases stack with
      | nil =>
          rw [dfsAux_nil] at h
          obtain ⟨-, h2⟩ := Prod.mk.injEq .. ▸ Option.some.injEq .. ▸ h
          exact h2 ▸ hnd
      | cons n rest => exact Option.noConfusion h
  | succ f ih =>
      intro stack visited deps visited' deps' h hnd hdv
      cases stack with
      | nil =>
          rw [dfsAux_nil] at h
          obtain ⟨-, h2⟩ := Prod.mk.injEq .. ▸ Option.some.injEq .. ▸ h
          exact h2 ▸ hnd
      | cons n rest =>
          rw [dfsAux_succ] at h
          by_cases hv : n ∈ visited
          · rw [if_pos hv] at h
            exact ih rest visited deps visited' deps' h hnd hdv
          · rw [if_neg hv] at h
            apply ih (children n ++ rest) (n :: visited) (deps ++ [n])
              visited' deps' h
            · rw [List.nodup_append]
              refine ⟨hnd, List.nodup_singleton n, ?_⟩
              intro x hx hxn
              rw [List.mem_singleton] at hxn
              exact hv (hxn ▸ hdv x hx)
            · intro x hx
              rcases List.mem_append.mp hx with h1 | h1
              · exact List.mem_cons_of_mem n (hdv x h1)
              · rw [List.mem_singleton] at h1
                exact h1 ▸ List.mem_cons_self n visited

/-- Soundness: every name in the result is reachable from `p` whenever
every pending stack name and every already-collected name is. -/
theorem dfsAux_sound (children : String → List String) (p : String) :
    ∀ (fuel : Nat) (stack visited deps visited' deps' : List String),
      dfsAux children fuel stack visited deps = some (visited', deps') →
      (∀ x ∈ stack, Relation.ReflTransGen (fun a b => b ∈ children a) p x) →
      (∀ x ∈ deps, Relation.ReflTransGen (fun a b => b ∈ children a) p x) →
      ∀ x ∈ deps', Relation.ReflTransGen (fun a b => b ∈ children a) p x := by
  intro fuel
  induction fuel with
  | zero =>
      intro stack visited deps visited' deps' h _ hd
      cases stack with
      | nil =>
          rw [dfsAux_nil] at h
          obtain ⟨-, h2⟩ := Prod.mk.injEq .. ▸ Option.some.injEq .. ▸ h
          exact h2 ▸ hd
      | cons n rest => exact Option.noConfusion h
  | succ f ih =>
      intro stack visited deps visited' deps' h hs hd
      cases stack with
      | nil =>
          rw [dfsAux_nil] at h
          obtain ⟨-, h2⟩ := Prod.mk.injEq .. ▸ Option.some.injEq .. ▸ h
          exact h2 ▸ hd
      | cons n rest =>
          rw [dfsAux_succ] at h
          have hn : Relation.ReflTransGen (fun a b => b ∈ children a) p n :=
            hs n (List.mem_cons_self n rest)
          by_cases hv : n ∈ visited
          · rw [if_pos hv] at h
            exact ih rest visited deps visited' deps' h
              (fun x hx => hs x (List.mem_cons_of_mem n hx)) hd
          · rw [if_neg hv] at h
            apply ih (children n ++ rest) (n :: visited) (deps ++ [n])
              visited' deps' h
            · intro x hx
              rcases List.mem_append.mp hx with h1 | h1
              · exact Relation.ReflTransGen.tail hn h1
              · exact hs x (List.mem_cons_of_mem n h1)
            · intro x hx
              rcases List.mem_append.mp hx with h1 | h1
              · exact hd x h1
              · rw [List.mem_singleton] at h1
                exact h1 ▸ hn

/-- The final visited set is closed under the successor function, given
that successors of already-visited names are visited or pending. -/
theorem dfsAux_closed (children : String → List String) :
    ∀ (fuel : Nat) (stack visited deps visited' deps' : List String),
      dfsAux children fuel stack visited deps = some (visited', deps') →
      (∀ a ∈ visited, ∀ b ∈ children a, b ∈ visited ∨ b ∈ stack) →
      ∀ a ∈ visited', ∀ b ∈ children a, b ∈ visited' := by
  intro fuel
  induction fuel with
  | zero =>
      intro stack visited deps visited' deps' h hinv
      cases stack with
      | nil =>
          rw [dfsAux_nil] at h
          obtain ⟨h1, -⟩ := Prod.mk.injEq .. ▸ Option.some.injEq .. ▸ h
          subst h1
          intro a ha b hb
          rcases hinv a ha b hb with h1 | h1
          · exact h1
          · exact absurd h1 (List.not_mem_nil b)
      | cons n rest => exact Option.noConfusion h
  | succ f ih =>
      intro stack visited deps visited' deps' h hinv
      cases stack with
      | nil =>
          rw [dfsAux_nil] at h
          obtain ⟨h1, -⟩ := Prod.mk.injEq .. ▸ Option.some.injEq .. ▸ h
          subst h1
          intro a ha b hb
          rcases hinv a ha b hb with h1 | h1
          · exact h1
          · exact absurd h1 (List.not_mem_nil b)
      | cons n rest =>
          rw [dfsAux_succ] at h
          by_cases hv : n ∈ visited
          · rw [if_pos hv] at h
            apply ih rest visited deps visited' deps' h
            intro a ha b hb
            rcases hinv a ha b hb with h1 | h1
            · exact Or.inl h1
            · rcases List.mem_cons.mp h1 with h2 | h2
              · exact Or.inl (h2 ▸ hv)
              · exact Or.inr h2
          · rw [if_neg hv] at h
            apply ih (children n ++ rest) (n :: visited) (deps ++ [n])
              visited' deps' h
            intro a ha b hb
            rcases List.mem_cons.mp ha with h1 | h1
            · exact Or.inr (List.mem_append.mpr (Or.inl (h1 ▸ hb)))
            · rcases hinv a h1 b hb with h2 | h2
              · exact Or.inl (List.mem_cons_of_mem n h2)
              · rcases List.mem_cons.mp h2 with h3 | h3
                · exact Or.inl (h3 ▸ List.mem_cons_self n visited)
                · exact Or.inr (List.mem_append.mpr (Or.inr h3))

/-- Every pending and every visited name ends up in the final visited
set. -/
theorem dfsAux_absorb (children : String → List String) :
    ∀ (fuel : Nat) (stack visited deps visited' deps' : List String),
      dfsAux children fuel stack visited deps = some (visited', deps') →
      (∀ x ∈ stack, x ∈ visited') ∧ (∀ x ∈ visited, x ∈ visited') := by
  intro fuel
  induction fuel with
  | zero =>
      intro stack visited deps visited' deps' h
      cases stack with
      | nil =>
          rw [dfsAux_nil] at h
          obtain ⟨h1, -⟩ := Prod.mk.injEq .. ▸ Option.some.injEq .. ▸ h
          subst h1
          exact ⟨fun x hx => absurd hx (List.not_mem_nil x), fun x hx => hx⟩
      | cons n rest => exact Option.noConfusion h
  | succ f ih =>
      intro stack visited deps visited' deps' h
      cases stack with
      | nil =>
          rw [dfsAux_nil] at h
          obtain ⟨h1, -⟩ := Prod.mk.injEq .. ▸ Option.some.injEq .. ▸ h
          subst h1
          exact ⟨fun x hx => absurd hx (List.not_mem_nil x), fun x hx => hx⟩
      | cons n rest =>
          rw [dfsAux_succ] at h
          by_cases hv : n ∈ visited
          · rw [if_pos hv] at h
            obtain ⟨h1, h2⟩ := ih rest visited deps visited' deps' h
            refine ⟨?_, h2⟩
            intro x hx
            rcases List.mem_cons.mp hx with h3 | h3
            · exact h2 x (h3 ▸ hv)
            · exact h1 x h3
          · rw [if_neg hv] at h
            obtain ⟨h1, h2⟩ :=
              ih (children n ++ rest) (n :: visited) (deps ++ [n])
                visited' deps' h
            refine ⟨?_, ?_⟩
            · intro x hx
              rcases List.mem_cons.mp hx with h3 | h3
              · exact h2 x (h3 ▸ List.mem_cons_self n visited)
              · exact h1 x (List.mem_append.mpr (Or.inr h3))
            · intro x hx
              exact h2 x (List.mem_cons_of_mem n hx)

theorem lookupPkg_eq_none (idx : PkgIndex) (n : String)
    (hn : n ∉ names idx) : lookupPkg idx n = none := by
  apply List.find?_eq_none.mpr
  intro q hq
  simp only [decide_eq_true_eq]
  intro hc
  exact hn (List.mem_map.mpr ⟨q, hq, hc⟩)

theorem childrenCentos_eq_nil (idx : PkgIndex) (n : String)
    (hn : n ∉ universeNames idx) : childrenCentos idx n = [] := by
  unfold childrenCentos
  rw [lookupPkg_eq_none idx n
    (fun hc => hn (List.mem_append.mpr (Or.inl hc)))]

theorem childrenAlpine_eq_nil (idx : PkgIndex) (n : String)
    (hn : n ∉ universeNames idx) : childrenAlpine idx n = [] := by
  unfold childrenAlpine
  rw [lookupPkg_eq_none idx n
    (fun hc => hn (List.mem_append.mpr (Or.inl hc)))]

theorem childrenAlpine_mem_isSome (idx : PkgIndex) (a b : String)
    (hb : b ∈ childrenAlpine idx a) : (lookupPkg idx b).isSome := by
  unfold childrenAlpine at hb
  cases hq : lookupPkg idx a with
  | none => rw [hq] at hb; exact absurd hb (List.not_mem_nil b)
  | some q => rw [hq] at hb; exact (List.mem_filter.mp hb).2

/-- Along in-index edges, every name reachable from an in-index name is
in the index. -/
theorem reach_alpine_isSome (idx : PkgIndex) (p x : String)
    (hp : (lookupPkg idx p).isSome)
    (h : Relation.ReflTransGen (fun a b => b ∈ childrenAlpine idx a) p x) :
    (lookupPkg idx x).isSome := by
  induction h with
  | refl => exact hp
  | tail _ hbc _ => exact childrenAlpine_mem_isSome idx _ _ hbc

/-- The complete behaviour of the worklist traversal started at `p` with
the sufficient fuel: it finishes, its result is duplicate-free, and it
lists exactly the names reachable from `p` through `children`. -/
theorem dfs_closure_spec (children : String → List String)
    (uni : List String) (hu : ∀ n, n ∉ uni → children n = [])
    (p : String) :
    ∃ visited' deps',
      dfsAux children (dfsFuel children uni [p]) [p] [] []
          = some (visited', deps') ∧
        deps'.Nodup ∧
        ∀ x, (x ∈ deps' ↔
          Relation.ReflTransGen (fun a b => b ∈ children a) p x) := by
  have hlt : ([p] : List String).length + dfsWeight children uni []
      < dfsFuel children uni [p] := by
    unfold dfsFuel
    omega
  have hsome := dfsAux_isSome children uni hu
    (dfsFuel children uni [p]) [p] [] [] hlt
  cases hres : dfsAux children (dfsFuel children uni [p]) [p] [] [] with
  | none => rw [hres] at hsome; exact absurd hsome (by simp)
  | some vd =>
      obtain ⟨visited', deps'⟩ := vd
      refine ⟨visited', deps', rfl, ?_, ?_⟩
      · exact dfsAux_nodup children _ [p] [] [] visited' deps' hres
          List.nodup_nil (fun x hx => absurd hx (List.not_mem_nil x))
      · intro x
        constructor
        · intro hx
          apply dfsAux_sound children p _ [p] [] [] visited' deps' hres
          · intro y hy
            rw [List.mem_singleton] at hy
            exact hy ▸ Relation.ReflTransGen.refl
          · intro y hy
            exact absurd hy (List.not_mem_nil y)
          · exact hx
        · intro hx
          obtain ⟨t, ht, hmem⟩ :=
            dfsAux_grow children _ [p] [] [] visited' deps' hres
          have htd : deps' = t := by rw [ht]; rfl
          have hvd : ∀ y, y ∈ visited' ↔ y ∈ deps' := by
            intro y
            rw [hmem y, htd]
            simp
          have hcl := dfsAux_closed children _ [p] [] [] visited' deps'
            hres (fun a ha => absurd ha (List.not_mem_nil a))
          have habs := dfsAux_absorb children _ [p] [] [] visited' deps'
            hres
          have hp : p ∈ visited' := habs.1 p (List.mem_singleton.mpr rfl)
          rw [← hvd x]
          induction hx with
          | refl => exact hp
          | tail _ hbc ihb => exact hcl _ ihb _ hbc

/-- The closure list of the CentOS traversal is duplicate-free and lists
exactly the names reachable from `p` (through all dependency tokens of
known packages). -/
theorem getAllDep_spec (idx : PkgIndex) (p : String) :
    (getAllDep idx p).Nodup ∧
      ∀ x, (x ∈ getAllDep idx p ↔
        Relation.ReflTransGen (fun a b => b ∈ childrenCentos idx a) p x)
    := by
  obtain ⟨v', d', hres, hnd, hiff⟩ :=
    dfs_closure_spec (childrenCentos idx) (universeNames idx)
      (childrenCentos_eq_nil idx) p
  have hval : getAllDep idx p = d' := by
    unfold getAllDep
    rw [hres]
  rw [hval]
  exact ⟨hnd, hiff⟩

/-- The closure list of the Alpine traversal is duplicate-free and lists
exactly the names reachable from `p` through in-index dependencies. -/
theorem getAllDependencies_spec (idx : PkgIndex) (p : String) :
    (getAllDependencies idx p).Nodup ∧
      ∀ x, (x ∈ getAllDependencies idx p ↔
        Relation.ReflTransGen (fun a b => b ∈ childrenAlpine idx a) p x)
    := by
  obtain ⟨v', d', hres, hnd, hiff⟩ :=
    dfs_closure_spec (childrenAlpine idx) (universeNames idx)
      (childrenAlpine_eq_nil idx) p
  have hval : getAllDependencies idx p = d' := by
    unfold getAllDependencies
    rw [hres]
  rw [hval]
  exact ⟨hnd, hiff⟩

/- ### Claim C9 -/

/-- C9. On every input graph, cyclic or not, the visited-set depth-first
closure computation of both collectors terminates (the traversal reaches
its base case within the stated fuel), produces a finite list, and lists
every vertex at most once. -/
theorem closure_terminates_finite_nodup :
    ∀ (idx : PkgIndex) (p : String),
      (dfsAux (childrenCentos idx)
        (dfsFuel (childrenCentos idx) (universeNames idx) [p])
        [p] [] []).isSome ∧
      (dfsAux (childrenAlpine idx)
        (dfsFuel (childrenAlpine idx) (universeNames idx) [p])
        [p] [] []).isSome ∧
      (getAllDep idx p).Nodup ∧ (getAllDependencies idx p).Nodup := by
  intro idx p
  have hlt : ∀ children : String → List String,
      ([p] : List String).length
          + dfsWeight children (universeNames idx) []
        < dfsFuel children (universeNames idx) [p] := by
    intro children
    unfold dfsFuel
    omega
  refine ⟨?_, ?_, ?_, ?_⟩
  · exact dfsAux_isSome (childrenCentos idx) (universeNames idx)
      (childrenCentos_eq_nil idx) _ [p] [] [] (hlt _)
  · exact dfsAux_isSome (childrenAlpine idx) (universeNames idx)
      (childrenAlpine_eq_nil idx) _ [p] [] [] (hlt _)
  · exact (getAllDep_spec idx p).1
  · exact (getAllDependencies_spec idx p).1

/- ### Depends-count (`Collect` in both collectors)

```go
countMap := make(map[string]int)
for _, deps := range depMap { for _, dep := range deps { countMap[dep]++ } }
```
-/

/-- `depMap` of the CentOS collector: one closure list per index entry. -/
def depMapCentos (idx : PkgIndex) : List (List String) :=
  idx.map (fun q => getAllDep idx q.name)

/-- `countMap[v]` of the CentOS collector: total number of occurrences of
`v` across all closure lists. -/
def countMapCentos (idx : PkgIndex) (v : String) : Nat :=
  ((depMapCentos idx).map (fun deps => deps.count v)).sum

/-- `depMap` of the Alpine collector. -/
def depMapAlpine (idx : PkgIndex) : List (List String) :=
  idx.map (fun q => getAllDependencies idx q.name)

/-- `countMap[v]` of the Alpine collector. -/
def countMapAlpine (idx : PkgIndex) (v : String) : Nat :=
  ((depMapAlpine idx).map (fun deps => deps.count v)).sum

/- ### Claim C4 -/

/-- C4. The claim states that for every parser, `closure(p)` is exactly
the set of in-index vertices reachable from `p`, and in particular
`closure(A) = {A}` on the index `{A depends X}` with `X` missing.  This is
false for the CentOS collector: `getAllDep` appends every popped name
before checking index membership, so `X` is recorded and
`closure(A) = [A, X]` (the Alpine collector does restrict to the index,
and `dependsCount(A) = 1` holds for both). -/
theorem centos_closure_contains_out_of_index :
    getAllDep idxS3 "A" = ["A", "X"] ∧ lookupPkg idxS3 "X" = none ∧
      getAllDependencies idxS3 "A" = ["A"] ∧
      countMapCentos idxS3 "A" = 1 ∧ countMapAlpine idxS3 "A" = 1 := by
  refine ⟨by decide, by decide, by decide, by decide, by decide⟩

/-- C4 (amended): for every `p ∈ V`, the Alpine closure is exactly the set
of vertices reachable from `p` along in-index dependency edges (all its
members are in the index and it contains `p`, so `dependsCount(p) ≥ 1`);
the CentOS closure is instead the set of names reachable when every
dependency token of a known package is followed, which additionally
contains out-of-index tokens such as `X` in `{A depends X}`. -/
theorem closure_reachability_amended :
    ∀ (idx : PkgIndex) (p : String), (lookupPkg idx p).isSome →
      (∀ x, x ∈ getAllDependencies idx p ↔
        Relation.ReflTransGen (fun a b => b ∈ childrenAlpine idx a) p x) ∧
      (∀ x ∈ getAllDependencies idx p, (lookupPkg idx x).isSome) ∧
      (∀ x, x ∈ getAllDep idx p ↔
        Relation.ReflTransGen (fun a b => b ∈ childrenCentos idx a) p x) ∧
      p ∈ getAllDependencies idx p ∧ p ∈ getAllDep idx p ∧
      1 ≤ countMapAlpine idx p ∧ 1 ≤ countMapCentos idx p := by
  intro idx p hp
  obtain ⟨hndA, hiffA⟩ := getAllDependencies_spec idx p
  obtain ⟨hndC, hiffC⟩ := getAllDep_spec idx p
  have hselfA : p ∈ getAllDependencies idx p :=
    (hiffA p).mpr Relation.ReflTransGen.refl
  have hselfC : p ∈ getAllDep idx p :=
    (hiffC p).mpr Relation.ReflTransGen.refl
  have hq : ∃ q, q ∈ idx ∧ q.name = p := by
    cases hres : lookupPkg idx p with
    | none => rw [hres] at hp; exact absurd hp (by simp)
    | some q =>
        refine ⟨q, List.mem_of_find?_eq_some hres, ?_⟩
        have := List.find?_some hres
        simpa using this
  obtain ⟨q, hqmem, hqname⟩ := hq
  refine ⟨hiffA, ?_, hiffC, hselfA, hselfC, ?_, ?_⟩
  · intro x hx
    exact reach_alpine_isSome idx p x hp ((hiffA x).mp hx)
  · have hmem : (getAllDependencies idx p).count p
        ∈ (depMapAlpine idx).map (fun deps => deps.count p) := by
      apply List.mem_map.mpr
      refine ⟨getAllDependencies idx q.name, ?_, by rw [hqname]⟩
      exact List.mem_map.mpr ⟨q, hqmem, rfl⟩
    have hpos : 0 < (getAllDependencies idx p).count p :=
      List.count_pos_iff.mpr hselfA
    calc 1 ≤ (getAllDependencies idx p).count p := hpos
      _ ≤ countMapAlpine idx p :=
        List.single_le_sum (fun x _ => Nat.zero_le x) _ hmem
  · have hmem : (getAllDep idx p).count p
        ∈ (depMapCentos idx).map (fun deps => deps.count p) := by
      apply List.mem_map.mpr
      refine ⟨getAllDep idx q.name, ?_, by rw [hqname]⟩
      exact List.mem_map.mpr ⟨q, hqmem, rfl⟩
    have hpos : 0 < (getAllDep idx p).count p :=
      List.count_pos_iff.mpr hselfC
    calc 1 ≤ (getAllDep idx p).count p := hpos
      _ ≤ countMapCentos idx p :=
        List.single_le_sum (fun x _ => Nat.zero_le x) _ hmem

/-- Witness for the amended C4 on scenario S3. -/
theorem closure_reachability_witness :
    (lookupPkg idxS3 "A").isSome ∧
      ("A" ∈ getAllDependencies idxS3 "A" ∧ "A" ∈ getAllDep idxS3 "A" ∧
        1 ≤ countMapAlpine idxS3 "A" ∧ 1 ≤ countMapCentos idxS3 "A") :=
  ⟨by decide,
    (closure_reachability_amended idxS3 "A" (by decide)).2.2.2.1,
    (closure_reachability_amended idxS3 "A" (by decide)).2.2.2.2.1,
    (closure_reachability_amended idxS3 "A" (by decide)).2.2.2.2.2.1,
    (closure_reachability_amended idxS3 "A" (by decide)).2.2.2.2.2.2⟩

/- ### PageRank (`calculatePageRank`, identical in both collectors)

The Go function works on `float64`; it is modelled over `ℚ`.  Go map
iteration order only permutes the summands of each accumulated value, so
over `ℚ` the result is the sum written here.  The division
`pageRank[pkgName] / float64(depNum)` is executed by the Go code only when
an in-index out-neighbour exists, hence `depNum ≥ 1` (claim C10); in the
model the corresponding summand is multiplied by an occurrence count that
is `0` whenever `depNum = 0`, so the two agree. -/

/-- The in-index dependency occurrences of a record (the tokens counted by
the `depNum` loop and distributed to by the inner loop). -/
def inDeps (idx : PkgIndex) (p : PackageInfo) : List String :=
  p.depends.filter (fun d => (lookupPkg idx d).isSome)

/-- `depNum`: the out-degree counting only edges to vertices in `V`,
with multiplicity. -/
def depNum (idx : PkgIndex) (p : PackageInfo) : Nat := (inDeps idx p).length

/-- Read of the rank map (`pageRank[pkgName]`). -/
def prLookup (pr : List (String × ℚ)) (k : String) : ℚ :=
  match pr.find? (fun e => e.1 = k) with
  | some e => e.2
  | none => 0

/-- One iteration of the PageRank loop: base value `(1-d)/n` plus, for
each package `p` and each occurrence of `q` among `p`'s in-index
dependencies, a share `d · PR[p] / depNum(p)`. -/
def prStep (idx : PkgIndex) (d : ℚ) (pr : List (String × ℚ)) :
    List (String × ℚ) :=
  idx.map (fun q =>
    (q.name,
      (1 - d) / (idx.length : ℚ) +
        (idx.map (fun p =>
          ((inDeps idx p).count q.name : ℚ) *
            (d * prLookup pr p.name / (depNum idx p : ℚ)))).sum))

/-- `calculatePageRank`: start from the uniform vector `1/n` and iterate
`prStep`. -/
def calculatePageRank (idx : PkgIndex) (iterations : Nat) (d : ℚ) :
    List (String × ℚ) :=
  match iterations with
  | 0 => idx.map (fun q => (q.name, 1 / (idx.length : ℚ)))
  | k+1 => prStep idx d (calculatePageRank idx k d)

/-- The total rank mass after `k` iterations. -/
def prSum (idx : PkgIndex) (k : Nat) (d : ℚ) : ℚ :=
  ((calculatePageRank idx k d).map Prod.snd).sum

theorem names_cons (q : PackageInfo) (idx : PkgIndex) :
    names (q :: idx) = q.name :: names idx := rfl

theorem mem_names_of_lookup_isSome (idx : PkgIndex) (x : String)
    (h : (lookupPkg idx x).isSome) : x ∈ names idx := by
  cases hres : lookupPkg idx x with
  | none => rw [hres] at h; exact absurd h (by simp)
  | some q =>
      have hq := List.mem_of_find?_eq_some hres
      have hname := List.find?_some hres
      simp only [decide_eq_true_eq] at hname
      exact List.mem_map.mpr ⟨q, hq, hname⟩

theorem prLookup_cons (e : String × ℚ) (pr : List (String × ℚ))
    (k : String) :
    prLookup (e :: pr) k = if e.1 = k then e.2 else prLookup pr k := by
  unfold prLookup
  by_cases h : e.1 = k <;> simp [List.find?_cons, h]

theorem prLookup_map (idx : PkgIndex) (F : PackageInfo → ℚ)
    (hnd : (names idx).Nodup) (q : PackageInfo) (hq : q ∈ idx) :
    prLookup (idx.map (fun r => (r.name, F r))) q.name = F q := by
  induction idx with
  | nil => exact absurd hq (List.not_mem_nil q)
  | cons r rest ih =>
      rw [names_cons, List.nodup_cons] at hnd
      rcases List.mem_cons.mp hq with h | h
      · subst h
        rw [List.map_cons, prLookup_cons]
        simp
      · have hrq : ¬(r.name = q.name) := by
          intro hc
          exact hnd.1 (hc ▸ List.mem_map.mpr ⟨q, h, rfl⟩)
        rw [List.map_cons, prLookup_cons, if_neg hrq]
        exact ih hnd.2 h

theorem qsum_map_zero {β : Type} (m : List β) :
    (m.map (fun _ => (0 : ℚ))).sum = 0 := by
  induction m with
  | nil => rfl
  | cons b m ih => simp [ih]

theorem qsum_map_add {α : Type} (l : List α) (f g : α → ℚ) :
    (l.map (fun x => f x + g x)).sum = (l.map f).sum + (l.map g).sum := by
  induction l with
  | nil => simp
  | cons a l ih =>
      simp only [List.map_cons, List.sum_cons, ih]
      ring

theorem qsum_map_comm {α β : Type} (l : List α) (m : List β)
    (f : α → β → ℚ) :
    (l.map (fun x => (m.map (fun y => f x y)).sum)).sum
      = (m.map (fun y => (l.map (fun x => f x y)).sum)).sum := by
  induction l with
  | nil => simp [qsum_map_zero]
  | cons a l ih =>
      simp only [List.map_cons, List.sum_cons, ih]
      rw [← qsum_map_add]

theorem qsum_if_not_mem (idx : PkgIndex) (a : String)
    (ha : a ∉ names idx) :
    (idx.map (fun q => if q.name = a then (1 : ℚ) else 0)).sum = 0 := by
  induction idx with
  | nil => rfl
  | cons r rest ih =>
      rw [names_cons] at ha
      have h1 : ¬(r.name = a) := fun hc =>
        ha (hc ▸ List.mem_cons_self r.name (names rest))
      have h2 : a ∉ names rest := fun hc =>
        ha (List.mem_cons_of_mem r.name hc)
      simp [h1, ih h2]

theorem qsum_if_name (idx : PkgIndex) (a : String)
    (hnd : (names idx).Nodup) (ha : a ∈ names idx) :
    (idx.map (fun q => if q.name = a then (1 : ℚ) else 0)).sum = 1 := by
  induction idx with
  | nil => exact absurd ha (List.not_mem_nil a)
  | cons r rest ih =>
      rw [names_cons, List.nodup_cons] at hnd
      rw [names_cons] at ha
      by_cases h : r.name = a
      · have h2 : a ∉ names rest := h ▸ hnd.1
        simp [h, qsum_if_not_mem rest a h2]
      · rcases List.mem_cons.mp ha with h1 | h1
        · exact absurd h1.symm h
        · simp [h, ih hnd.2 h1]

theorem qsum_count (idx : PkgIndex) (hnd : (names idx).Nodup) :
    ∀ (L : List String), (∀ x ∈ L, x ∈ names idx) →
      (idx.map (fun q => ((L.count q.name : ℚ)))).sum = (L.length : ℚ) := by
  intro L
  induction L with
  | nil =>
      intro _
      simp [qsum_map_zero]
  | cons a L ih =>
      intro hL
      have h1 : ∀ q : PackageInfo,
          (((a :: L).count q.name : ℚ))
            = (L.count q.name : ℚ) + (if q.name = a then (1 : ℚ) else 0)
          := by
        intro q
        rw [List.count_cons]
        by_cases h : q.name = a
        · simp [h]
        · have h2 : ¬(a = q.name) := fun hc => h hc.symm
          simp [h, h2]
      calc (idx.map (fun q => (((a :: L).count q.name : ℚ)))).sum
          = (idx.map (fun q => (L.count q.name : ℚ)
              + (if q.name = a then (1 : ℚ) else 0))).sum := by
            simp only [h1]
        _ = (idx.map (fun q => (L.count q.name : ℚ))).sum
              + (idx.map (fun q =>
                  if q.name = a then (1 : ℚ) else 0)).sum :=
            qsum_map_add idx _ _
        _ = (L.length : ℚ) + 1 := by
            rw [ih (fun x hx => hL x (List.mem_cons_of_mem a hx)),
              qsum_if_name idx a hnd (hL a (List.mem_cons_self a L))]
        _ = ((a :: L).length : ℚ) := by
            simp only [List.length_cons]
            push_cast
            ring

theorem qsum_const (idx : PkgIndex) (c : ℚ) :
    (idx.map (fun _ => c)).sum = (idx.length : ℚ) * c := by
  induction idx with
  | nil => simp
  | cons q rest ih =>
      simp only [List.map_cons, List.sum_cons, List.length_cons, ih]
      push_cast
      ring

theorem qsum_map_mul_right {α : Type} (l : List α) (f : α → ℚ) (c : ℚ) :
    (l.map (fun x => f x * c)).sum = (l.map f).sum * c := by
  induction l with
  | nil => simp
  | cons a l ih =>
      simp only [List.map_cons, List.sum_cons, ih]
      ring

theorem qsum_map_mul_left {α : Type} (l : List α) (f : α → ℚ) (c : ℚ) :
    (l.map (fun x => c * f x)).sum = c * (l.map f).sum := by
  induction l with
  | nil => simp
  | cons a l ih =>
      simp only [List.map_cons, List.sum_cons, ih]
      ring

theorem calculatePageRank_map_form (idx : PkgIndex) (k : Nat) (d : ℚ) :
    ∃ F : PackageInfo → ℚ,
      calculatePageRank idx k d = idx.map (fun q => (q.name, F q)) := by
  cases k with
  | zero => exact ⟨fun _ => 1 / (idx.length : ℚ), rfl⟩
  | succ k =>
      exact ⟨fun q =>
        (1 - d) / (idx.length : ℚ) +
          (idx.map (fun p =>
            ((inDeps idx p).count q.name : ℚ) *
              (d * prLookup (calculatePageRank idx k d) p.name
                / (depNum idx p : ℚ)))).sum, rfl⟩

theorem qsum_prLookup (idx : PkgIndex) (hnd : (names idx).Nodup)
    (k : Nat) (d : ℚ) :
    (idx.map (fun p => prLookup (calculatePageRank idx k d) p.name)).sum
      = prSum idx k d := by
  obtain ⟨F, hF⟩ := calculatePageRank_map_form idx k d
  have h1 : ∀ p ∈ idx,
      prLookup (calculatePageRank idx k d) p.name = F p := by
    intro p hp
    rw [hF]
    exact prLookup_map idx F hnd p hp
  rw [List.map_congr_left h1]
  unfold prSum
  rw [hF, List.map_map]
  rfl

theorem inDeps_subset_names (idx : PkgIndex) (p : PackageInfo) :
    ∀ x ∈ inDeps idx p, x ∈ names idx := by
  intro x hx
  exact mem_names_of_lookup_isSome idx x (List.mem_filter.mp hx).2

theorem calculatePageRank_succ (idx : PkgIndex) (k : Nat) (d : ℚ) :
    calculatePageRank idx (k+1) d
      = prStep idx d (calculatePageRank idx k d) := rfl

/-- One iteration redistributes: the new total mass is `n·(1-d)/n` plus,
for every package, its out-degree times its per-edge share. -/
theorem prSum_succ (idx : PkgIndex) (hnd : (names idx).Nodup) (d : ℚ)
    (k : Nat) :
    prSum idx (k+1) d
      = (idx.map (fun _ => (1 - d) / (idx.length : ℚ))).sum
        + (idx.map (fun p =>
            (depNum idx p : ℚ) *
              (d * prLookup (calculatePageRank idx k d) p.name
                / (depNum idx p : ℚ)))).sum := by
  have hstep : prSum idx (k+1) d
      = (idx.map (fun q =>
          (1 - d) / (idx.length : ℚ) +
            (idx.map (fun p =>
              ((inDeps idx p).count q.name : ℚ) *
                (d * prLookup (calculatePageRank idx k d) p.name
                  / (depNum idx p : ℚ)))).sum)).sum := by
    unfold prSum
    rw [calculatePageRank_succ]
    unfold prStep
    rw [List.map_map]
    rfl
  rw [hstep, qsum_map_add]
  congr 1
  rw [qsum_map_comm]
  have hinner : ∀ p ∈ idx,
      (idx.map (fun q =>
        ((inDeps idx p).count q.name : ℚ) *
          (d * prLookup (calculatePageRank idx k d) p.name
            / (depNum idx p : ℚ)))).sum
      = (depNum idx p : ℚ) *
          (d * prLookup (calculatePageRank idx k d) p.name
            / (depNum idx p : ℚ)) := by
    intro p hp
    rw [qsum_map_mul_right]
    rw [qsum_count idx hnd (inDeps idx p) (inDeps_subset_names idx p)]
    rfl
  rw [List.map_congr_left hinner]

/-- With no dangling vertex the iteration conserves total mass exactly:
on a non-empty index with duplicate-free names the sum stays `1`. -/
theorem prSum_eq_one (idx : PkgIndex) (hnd : (names idx).Nodup)
    (hne : idx ≠ []) (hdang : ∀ p ∈ idx, 1 ≤ depNum idx p) (d : ℚ) :
    ∀ k, prSum idx k d = 1 := by
  have hn : (idx.length : ℚ) ≠ 0 := by
    have : 0 < idx.length := List.length_pos.mpr hne
    exact_mod_cast Nat.pos_iff_ne_zero.mp this
  intro k
  induction k with
  | zero =>
      unfold prSum calculatePageRank
      rw [List.map_map]
      have : (Prod.snd ∘ fun q : PackageInfo =>
          (q.name, 1 / (idx.length : ℚ))) = fun _ => 1 / (idx.length : ℚ)
        := rfl
      rw [this, qsum_const]
      field_simp
  | succ k ih =>
      rw [prSum_succ idx hnd d k, qsum_const]
      have hterm : ∀ p ∈ idx,
          (depNum idx p : ℚ) *
            (d * prLookup (calculatePageRank idx k d) p.name
              / (depNum idx p : ℚ))
          = d * prLookup (calculatePageRank idx k d) p.name := by
        intro p hp
        have hdp : (depNum idx p : ℚ) ≠ 0 := by
          have := hdang p hp
          positivity
        rw [mul_comm, div_mul_cancel₀ _ hdp]
      rw [List.map_congr_left hterm, qsum_map_mul_left,
        qsum_prLookup idx hnd k d, ih]
      field_simp

theorem prLookup_nonneg (pr : List (String × ℚ))
    (h : ∀ e ∈ pr, 0 ≤ e.2) (k : String) : 0 ≤ prLookup pr k := by
  unfold prLookup
  cases hres : pr.find? (fun e => e.1 = k) with
  | none => exact le_refl 0
  | some e => exact h e (List.mem_of_find?_eq_some hres)

theorem calculatePageRank_nonneg (idx : PkgIndex) (d : ℚ)
    (hd0 : 0 ≤ d) (hd1 : d ≤ 1) :
    ∀ k, ∀ e ∈ calculatePageRank idx k d, 0 ≤ e.2 := by
  intro k
  induction k with
  | zero =>
      intro e he
      obtain ⟨q, _, heq⟩ := List.mem_map.mp he
      rw [← heq]
      have : (0 : ℚ) ≤ (idx.length : ℚ) := Nat.cast_nonneg _
      show (0 : ℚ) ≤ 1 / (idx.length : ℚ)
      positivity
  | succ k ih =>
      intro e he
      rw [calculatePageRank_succ] at he
      unfold prStep at he
      obtain ⟨q, _, heq⟩ := List.mem_map.mp he
      rw [← heq]
      show (0 : ℚ) ≤ (1 - d) / (idx.length : ℚ) + _
      apply add_nonneg
      · apply div_nonneg
        · linarith
        · exact Nat.cast_nonneg _
      · apply List.sum_nonneg
        intro x hx
        obtain ⟨p, _, hxe⟩ := List.mem_map.mp hx
        rw [← hxe]
        apply mul_nonneg (Nat.cast_nonneg _)
        apply div_nonneg
        · exact mul_nonneg hd0 (prLookup_nonneg _ ih _)
        · exact Nat.cast_nonneg _

/-- Mass never grows above `1`: dangling vertices only leak mass. -/
theorem prSum_le_one (idx : PkgIndex) (hnd : (names idx).Nodup) (d : ℚ)
    (hd0 : 0 ≤ d) (hd1 : d ≤ 1) : ∀ k, prSum idx k d ≤ 1 := by
  intro k
  induction k with
  | zero =>
      have h0 : prSum idx 0 d
          = (idx.length : ℚ) * (1 / (idx.length : ℚ)) := by
        unfold prSum calculatePageRank
        rw [List.map_map]
        exact qsum_const idx _
      rw [h0]
      by_cases hn : (idx.length : ℚ) = 0
      · rw [hn]; norm_num
      · rw [mul_one_div, div_self hn]
  | succ k ih =>
      rw [prSum_succ idx hnd d k, qsum_const]
      have h1 : (idx.length : ℚ) * ((1 - d) / (idx.length : ℚ)) ≤ 1 - d
          := by
        by_cases hn : (idx.length : ℚ) = 0
        · rw [hn]; simp; linarith
        · rw [mul_comm, div_mul_cancel₀ _ hn]
      have h2 : (idx.map (fun p =>
          (depNum idx p : ℚ) *
            (d * prLookup (calculatePageRank idx k d) p.name
              / (depNum idx p : ℚ)))).sum ≤ d * prSum idx k d := by
        calc (idx.map (fun p =>
              (depNum idx p : ℚ) *
                (d * prLookup (calculatePageRank idx k d) p.name
                  / (depNum idx p : ℚ)))).sum
            ≤ (idx.map (fun p =>
                d * prLookup (calculatePageRank idx k d) p.name)).sum := by
              apply List.sum_le_sum
              intro p _
              have hL : 0 ≤ prLookup (calculatePageRank idx k d) p.name :=
                prLookup_nonneg _ (calculatePageRank_nonneg idx d hd0 hd1 k)
                  _
              by_cases hz : (depNum idx p : ℚ) = 0
              · rw [hz, zero_mul]
                exact mul_nonneg hd0 hL
              · rw [mul_comm, div_mul_cancel₀ _ hz]
          _ = d * prSum idx k d := by
              rw [qsum_map_mul_left, qsum_prLookup idx hnd k d]
      have h3 : d * prSum idx k d ≤ d * 1 :=
        mul_le_mul_of_nonneg_left ih hd0
      linarith

/- ### Claim C7 -/

/-- C7. After 20 iterations with damping `0.85` on a non-empty index with
duplicate-free names and no dangling vertex (every package has an
in-index out-neighbour), the total PageRank mass differs from `1` by less
than `1e-6` (it is exactly `1` in exact arithmetic); without that
assumption the mass is still at most `1` — dangling vertices only leak
mass, none is redistributed. -/
theorem pagerank_mass_conservation :
    ∀ (idx : PkgIndex), (names idx).Nodup →
      (idx ≠ [] → (∀ p ∈ idx, 1 ≤ depNum idx p) →
        |prSum idx 20 (85/100) - 1| < 1/1000000) ∧
      prSum idx 20 (85/100) ≤ 1 := by
  intro idx hnd
  constructor
  · intro hne hdang
    rw [prSum_eq_one idx hnd hne hdang (85/100) 20]
    norm_num
  · exact prSum_le_one idx hnd (85/100) (by norm_num) (by norm_num) 20

/-- Scenario S2 of the spec: the two-cycle `A → B → A`. -/
def idxS2 : PkgIndex :=
  [⟨"A", "1", "", "", ["B"]⟩, ⟨"B", "1", "", "", ["A"]⟩]

/-- Witness for C7 on the cycle S2 (no dangling vertex). -/
theorem pagerank_mass_witness :
    ((names idxS2).Nodup ∧ idxS2 ≠ [] ∧
        (∀ p ∈ idxS2, 1 ≤ depNum idxS2 p)) ∧
      (|prSum idxS2 20 (85/100) - 1| < 1/1000000 ∧
        prSum idxS2 20 (85/100) ≤ 1) :=
  ⟨⟨by decide, by decide, by decide⟩,
    (pagerank_mass_conservation idxS2 (by decide)).1 (by decide)
      (by decide),
    (pagerank_mass_conservation idxS2 (by decide)).2⟩

/- ### Claim C10 -/

/-- C10. `calculatePageRank` is total and never divides by zero: the
distribution step for a dependency token `t` of package `p` runs only
when `t` is a key of the index, and then `depNum(p) ≥ 1` because `t`
itself is counted by the `depNum` loop; on the empty index the function
returns the empty map without performing any division. -/
theorem pagerank_no_div_by_zero :
    (∀ (idx : PkgIndex) (p : PackageInfo) (t : String),
      p ∈ idx → t ∈ p.depends → (lookupPkg idx t).isSome →
        1 ≤ depNum idx p) ∧
      (∀ (iters : Nat) (d : ℚ), calculatePageRank [] iters d = []) := by
  constructor
  · intro idx p t _ ht hs
    have hmem : t ∈ inDeps idx p := List.mem_filter.mpr ⟨ht, hs⟩
    have hne : inDeps idx p ≠ [] := List.ne_nil_of_mem hmem
    have hpos := List.length_pos.mpr hne
    unfold depNum
    omega
  · intro iters d
    cases iters with
    | zero => rfl
    | succ k => rfl

/-- Witness for C10: the A-record of S1 has the in-index dependency `B`,
so its out-degree is at least one; the empty index yields an empty rank
map. -/
theorem pagerank_no_div_witness :
    ((⟨"A", "1", "", "", ["B"]⟩ : PackageInfo) ∈ idxS1 ∧
        "B" ∈ (⟨"A", "1", "", "", ["B"]⟩ : PackageInfo).depends ∧
        (lookupPkg idxS1 "B").isSome) ∧
      (1 ≤ depNum idxS1 ⟨"A", "1", "", "", ["B"]⟩ ∧
        calculatePageRank [] 20 (85/100) = []) :=
  ⟨⟨by decide, by decide, by decide⟩,
    pagerank_no_div_by_zero.1 idxS1 ⟨"A", "1", "", "", ["B"]⟩ "B"
      (by decide) (by decide) (by decide),
    pagerank_no_div_by_zero.2 20 (85/100)⟩

/- ### Git-link canonicalization (`gitmetricsync.go`, `syncGitMetrics`)

```go
githubRegex := regexp.MustCompile(`https?://github\.com/([^/\s]+/[^/\s]+)`)
if matches := githubRegex.FindStringSubmatch(link); len(matches) > 1 {
    normalizedLink := "https://github.com/" + matches[1]
```

The regex semantics used on these inputs — leftmost match, greedy
`[^/\s]+` segments — are embedded directly.  The deps.dev enricher
(`collector_depsdev.Run`) separately extracts `owner := parts[3]`,
`repo := strings.TrimSuffix(parts[4], ".git")` from
`parts := strings.Split(link, "/")` for links with the
`https://github.com/` prefix. -/

/-- A character allowed inside an `[^/\s]+` segment. -/
def isSegChar (c : Char) : Bool := c ≠ '/' && !c.isWhitespace

/-- Greedy `[^/\s]+` (possibly empty here; emptiness is rejected by the
caller). -/
def takeSeg (cs : List Char) : List Char := cs.takeWhile isSegChar

def ghPrefix : List Char := ("https://github.com/" : String).data

def ghPrefixHttp : List Char := ("http://github.com/" : String).data

/-- Match `owner/repo` (two non-empty segments) at the start of `rest`,
returning the capture. -/
def matchOwnerRepo (rest : List Char) : Option (List Char) :=
  if takeSeg rest = [] then none
  else
    match rest.drop (takeSeg rest).length with
    | '/' :: rest2 =>
        if takeSeg rest2 = [] then none
        else some (takeSeg rest ++ '/' :: takeSeg rest2)
    | _ => none

/-- Match the whole pattern at the start of `cs`. -/
def matchGithubAt (cs : List Char) : Option (List Char) :=
  if ghPrefix.isPrefixOf cs then
    matchOwnerRepo (cs.drop ghPrefix.length)
  else if ghPrefixHttp.isPrefixOf cs then
    matchOwnerRepo (cs.drop ghPrefixHttp.length)
  else none

/-- Leftmost match: try every start position from the left. -/
def findGithubCapture : List Char → Option (List Char)
  | [] => none
  | c :: cs =>
    match matchGithubAt (c :: cs) with
    | some cap => some cap
    | none => findGithubCapture cs

/-- The canonical `git_metrics` key computed by `syncGitMetrics`:
`"https://github.com/" + matches[1]`, or `none` when the regex does not
match. -/
def normalizeGitLink (link : String) : Option String :=
  (findGithubCapture link.data).map (fun cap => ⟨ghPrefix ++ cap⟩)

/-- `strings.TrimSuffix(repo, ".git")`. -/
def trimGitSuffix (cs : List Char) : List Char :=
  if (".git" : String).data.isSuffixOf cs then cs.take (cs.length - 4)
  else cs

/-- Owner and repo as extracted by the deps.dev enricher `Run` loop. -/
def depsdevOwnerRepo (link : String) : Option (String × String) :=
  if ghPrefix.isPrefixOf link.data then
    match splitChar '/' link.data with
    | _ :: _ :: _ :: o :: r :: _ => some (⟨o⟩, ⟨trimGitSuffix r⟩)
    | _ => none
  else none

theorem takeWhile_all {p : Char → Bool} :
    ∀ (xs : List Char), (∀ x ∈ xs, p x = true) → xs.takeWhile p = xs := by
  intro xs
  induction xs with
  | nil => intro _; rfl
  | cons x xs ih =>
      intro h
      rw [List.takeWhile_cons, h x (List.mem_cons_self x xs),
        ih (fun y hy => h y (List.mem_cons_of_mem x hy))]
      simp

theorem takeWhile_append_stop {p : Char → Bool} :
    ∀ (xs : List Char) (y : Char) (ys : List Char),
      (∀ x ∈ xs, p x = true) → p y = false →
      (xs ++ y :: ys).takeWhile p = xs := by
  intro xs y ys
  induction xs with
  | nil =>
      intro _ hy
      rw [List.nil_append, List.takeWhile_cons, hy]
      simp
  | cons x xs ih =>
      intro h hy
      rw [List.cons_append, List.takeWhile_cons,
        h x (List.mem_cons_self x xs),
        ih (fun z hz => h z (List.mem_cons_of_mem x hz)) hy]
      simp

theorem matchOwnerRepo_canonical (o r : List Char) (ho : o ≠ [])
    (hr : r ≠ []) (hoseg : ∀ c ∈ o, isSegChar c = true)
    (hrseg : ∀ c ∈ r, isSegChar c = true) :
    matchOwnerRepo (o ++ '/' :: r) = some (o ++ '/' :: r) := by
  unfold matchOwnerRepo takeSeg
  have htake : (o ++ '/' :: r).takeWhile isSegChar = o :=
    takeWhile_append_stop o '/' r hoseg (by decide)
  rw [htake, if_neg ho, List.drop_left]
  show (if r.takeWhile isSegChar = [] then none
    else some (o ++ '/' :: r.takeWhile isSegChar)) = some (o ++ '/' :: r)
  rw [takeWhile_all r hrseg, if_neg hr]

theorem isPrefixOf_append (l t : List Char) :
    l.isPrefixOf (l ++ t) = true := by
  rw [List.isPrefixOf_iff_prefix]
  exact List.prefix_append l t

theorem matchGithubAt_canonical (o r : List Char) (ho : o ≠ [])
    (hr : r ≠ []) (hoseg : ∀ c ∈ o, isSegChar c = true)
    (hrseg : ∀ c ∈ r, isSegChar c = true) :
    matchGithubAt (ghPrefix ++ (o ++ '/' :: r))
      = some (o ++ '/' :: r) := by
  unfold matchGithubAt
  rw [isPrefixOf_append]
  simp only [if_true]
  rw [List.drop_left]
  exact matchOwnerRepo_canonical o r ho hr hoseg hrseg

theorem findGithubCapture_of_match (c : Char) (cs : List Char)
    (cap : List Char) (h : matchGithubAt (c :: cs) = some cap) :
    findGithubCapture (c :: cs) = some cap := by
  unfold findGithubCapture
  rw [h]

theorem depsdevOwnerRepo_canonical (o r : List Char)
    (hoseg : ∀ c ∈ o, isSegChar c = true)
    (hrseg : ∀ c ∈ r, isSegChar c = true) :
    depsdevOwnerRepo ⟨ghPrefix ++ (o ++ '/' :: r)⟩
      = some (⟨o⟩, ⟨trimGitSuffix r⟩) := by
  unfold depsdevOwnerRepo
  have hdata : (⟨ghPrefix ++ (o ++ '/' :: r)⟩ : String).data
      = ghPrefix ++ (o ++ '/' :: r) := rfl
  rw [hdata, isPrefixOf_append]
  simp only [if_true]
  have hsplit : splitChar '/' (ghPrefix ++ (o ++ '/' :: r))
      = [("https:" : String).data, [], ("github.com" : String).data, o, r]
      := by
    have hre : ghPrefix ++ (o ++ '/' :: r)
        = ("https:" : String).data ++ '/' ::
            (([] : List Char) ++ '/' ::
              (("github.com" : String).data ++ '/' :: (o ++ '/' :: r)))
        := rfl
    have h1 : ('/' : Char) ∉ ("https:" : String).data := by decide
    have h2 : ('/' : Char) ∉ ([] : List Char) := by decide
    have h3 : ('/' : Char) ∉ ("github.com" : String).data := by decide
    have ho' : ('/' : Char) ∉ o := fun hc =>
      absurd (hoseg '/' hc) (by decide)
    have hr' : ('/' : Char) ∉ r := fun hc =>
      absurd (hrseg '/' hc) (by decide)
    rw [hre, splitChar_append_sep '/' _ _ h1,
      splitChar_append_sep '/' _ _ h2, splitChar_append_sep '/' _ _ h3,
      splitChar_append_sep '/' _ _ ho', splitChar_of_not_mem '/' r hr']
  rw [hsplit]

/- ### Claim C3 -/

/-- C3. The claim states that canonicalization strips a trailing `.git`,
so `https://github.com/O/R.git` and `https://github.com/O/R` map to the
same `git_metrics.git_link` key.  This is false: the capture group
`([^/\s]+/[^/\s]+)` of `syncGitMetrics` keeps `.git` inside the repo
segment, so the two links normalize to two distinct keys. -/
theorem gitlink_git_suffix_not_stripped :
    normalizeGitLink "https://github.com/O/R.git"
        = some "https://github.com/O/R.git" ∧
      normalizeGitLink "https://github.com/O/R"
        = some "https://github.com/O/R" ∧
      normalizeGitLink "https://github.com/O/R.git"
        ≠ normalizeGitLink "https://github.com/O/R" := by
  refine ⟨by decide, by decide, by decide⟩

/-- C3 (amended): `syncGitMetrics` canonicalizes by rewriting the scheme
to `https` and keeping the first two path segments verbatim — a trailing
`.git` is **not** stripped, so `…/O/R.git` and `…/O/R` are distinct keys;
the `.git` suffix is stripped only by the deps.dev enricher when it
extracts the repo name for its API queries. -/
theorem gitlink_canonicalization_amended :
    ∀ (o r : List Char), o ≠ [] → r ≠ [] →
      (∀ c ∈ o, isSegChar c = true) → (∀ c ∈ r, isSegChar c = true) →
      normalizeGitLink ⟨ghPrefix ++ (o ++ '/' :: r)⟩
          = some ⟨ghPrefix ++ (o ++ '/' :: r)⟩ ∧
        depsdevOwnerRepo ⟨ghPrefix ++ (o ++ '/' :: r)⟩
          = some (⟨o⟩, ⟨trimGitSuffix r⟩) := by
  intro o r ho hr hoseg hrseg
  constructor
  · unfold normalizeGitLink
    have hdata : (⟨ghPrefix ++ (o ++ '/' :: r)⟩ : String).data
        = ghPrefix ++ (o ++ '/' :: r) := rfl
    rw [hdata]
    have hmatch := matchGithubAt_canonical o r ho hr hoseg hrseg
    have hcons : ghPrefix ++ (o ++ '/' :: r)
        = 'h' :: (("ttps://github.com/" : String).data ++ (o ++ '/' :: r))
        := rfl
    rw [hcons] at hmatch ⊢
    rw [findGithubCapture_of_match _ _ _ hmatch]
    rfl
  · exact depsdevOwnerRepo_canonical o r hoseg hrseg

/-- Witness for the amended C3 at owner `O`, repo `R.git`. -/
theorem gitlink_canonicalization_witness :
    ((['O'] : List Char) ≠ [] ∧ ("R.git" : String).data ≠ [] ∧
        (∀ c ∈ (['O'] : List Char), isSegChar c = true) ∧
        (∀ c ∈ ("R.git" : String).data, isSegChar c = true)) ∧
      (normalizeGitLink
            ⟨ghPrefix ++ (['O'] ++ '/' :: ("R.git" : String).data)⟩
          = some ⟨ghPrefix ++ (['O'] ++ '/' :: ("R.git" : String).data)⟩ ∧
        depsdevOwnerRepo
            ⟨ghPrefix ++ (['O'] ++ '/' :: ("R.git" : String).data)⟩
          = some (⟨['O']⟩, ⟨trimGitSuffix ("R.git" : String).data⟩)) :=
  ⟨⟨by decide, by decide, by decide, by decide⟩,
    gitlink_canonicalization_amended ['O'] ("R.git" : String).data
      (by decide) (by decide) (by decide) (by decide)⟩

/- ### GitHub rate-limit handling

Two sites handle rate limits.  `collector_depsdev.getProjectType`: on an
error whose HTTP status is 403 and whose message matches
`rate reset in (\d+)m(\d+)s`, sleep for that duration and `goto attempt`
(so it retries after **every** such response); any other error is logged
and `""` returned (item skipped).  On success it scans the directory
listing and returns the marker of the first recognized file.
`githubmetrics.Run` (`handleRateLimitError`): on a typed
`*github.RateLimitError`, sleep until the reset time and issue exactly one
retry; a non-rate-limit error, or a retry that fails again, leaves the
statistic unset (logged, item skipped).

The environment is modelled by the list of successive responses the API
would give; performed sleeps are returned alongside the result. -/

/-- One GitHub answer as seen by `getProjectType`. -/
inductive GhResponse where
  | success (files : List String)
  | rateLimited (minutes seconds : Nat)
  | forbiddenNoReset
  | otherError
deriving Repr, DecidableEq

/-- The `switch *file.Name` marker classification. -/
def markerType : String → Option String
  | "package.json" => some "npm"
  | "setup.py" => some "pypi"
  | "Cargo.toml" => some "cargo"
  | "pom.xml" => some "maven"
  | "build.gradle" => some "gradle"
  | "go.mod" => some "go"
  | _ => none

/-- First recognized marker in directory order, else `""`. -/
def classifyDir (files : List String) : String :=
  match files.filterMap markerType with
  | t :: _ => t
  | [] => ""

/-- `getProjectType` over the response sequence: returns the seconds slept
(one entry per rate-limit loop) and the result (`""` = item skipped). -/
def getProjectType : List GhResponse → List Nat × String
  | [] => ([], "")
  | .success files :: _ => ([], classifyDir files)
  | .rateLimited m s :: rest =>
      let acc := getProjectType rest
      ((m * 60 + s) :: acc.1, acc.2)
  | .forbiddenNoReset :: _ => ([], "")
  | .otherError :: _ => ([], "")

/-- One API answer as seen by `githubmetrics.Run`. -/
inductive GhApiResult (α : Type) where
  | ok (a : α)
  | rateLimitTyped (wait : Nat)
  | err

/-- One statistic fetch of `githubmetrics.Run`: `(attempts, sleep,
result)`.  A typed rate-limit answer causes one sleep and exactly one
retry; anything else is never retried. -/
def fetchWithRetry {α : Type} : List (GhApiResult α) → Nat × Option Nat × Option α
  | [] => (0, none, none)
  | .ok a :: _ => (1, none, some a)
  | .err :: _ => (1, none, none)
  | .rateLimitTyped w :: rest =>
      match rest with
      | .ok a :: _ => (2, some w, some a)
      | _ => (2, some w, none)

/- ### Claim C8 -/

/-- C8. The claim states that the enricher sleeps and then retries exactly
once, skipping the item if the retry fails again.  This is false for
`getProjectType`: its `goto attempt` loop retries after every rate-limit
response, so after two successive rate-limit responses a third attempt is
still made and succeeds here (two sleeps of 62 s and 184 s are performed),
where retry-exactly-once would have skipped the item. -/
theorem rate_limit_retry_more_than_once :
    getProjectType [.rateLimited 1 2, .rateLimited 3 4,
        .success ["go.mod"]] = ([62, 184], "go") ∧
      (getProjectType [.rateLimited 1 2, .rateLimited 3 4,
        .success ["go.mod"]]).2 ≠ "" := by
  refine ⟨by decide, by decide⟩

/-- C8 (amended): `getProjectType` sleeps for each parsed
`rate reset in XmYs` duration and retries after **every** rate-limit
response, without bound — any run of `k` rate-limit answers is followed by
a further attempt, and the final outcome is that of the first
non-rate-limit answer; non-rate-limit failures skip the item.  Only
`githubmetrics.Run` retries exactly once, on the typed rate-limit error:
two attempts after a rate-limit answer (skipping if the retry fails),
one attempt otherwise. -/
theorem rate_limit_retry_amended :
    (∀ (m s k : Nat) (rest : List GhResponse),
      getProjectType (List.replicate k (.rateLimited m s) ++ rest)
        = (List.replicate k (m * 60 + s) ++ (getProjectType rest).1,
            (getProjectType rest).2)) ∧
    (∀ (rest : List GhResponse),
      getProjectType (.otherError :: rest) = ([], "")) ∧
    (∀ (α : Type) (w : Nat) (rest : List (GhApiResult α)),
      (fetchWithRetry (.rateLimitTyped w :: rest)).1 = 2) ∧
    (∀ (α : Type) (w w' : Nat) (rest : List (GhApiResult α)),
      fetchWithRetry (.rateLimitTyped w :: .rateLimitTyped w' :: rest)
        = (2, some w, none)) ∧
    (∀ (α : Type) (rest : List (GhApiResult α)),
      (fetchWithRetry (.err :: rest)).1 = 1) := by
  refine ⟨?_, fun _ => rfl, ?_, fun _ _ _ _ => rfl, fun _ _ => rfl⟩
  · intro m s k
    induction k with
    | zero => intro rest; simp
    | succ k ih =>
        intro rest
        rw [List.replicate_succ, List.replicate_succ, List.cons_append,
          List.cons_append]
        show ((m * 60 + s) ::
            (getProjectType (List.replicate k (.rateLimited m s) ++ rest)).1,
          (getProjectType (List.replicate k (.rateLimited m s) ++ rest)).2)
          = _
        rw [ih rest]
  · intro α w rest
    cases rest with
    | nil => rfl
    | cons x rest => cases x <;> rfl
